import Mathlib

/-!
Verification of the object-store / commit-format core of `libwyag.py`.

The Python source is shallowly embedded: bytes are `List Nat` (byte
values), Python `str` is `List Char`, `bytes.find` / slicing / `int()`
are modelled with Python's exact index conventions (including negative
indices), the recursive commit parser and its inner `while` scan take a
fuel argument (the code can genuinely diverge, and fuel lets that be
stated as "errors with `noFuel` for every fuel"), and the object store
is a map from the 2-character/rest path split to compressed bytes.
`zlib.compress` / `zlib.decompress` and `hashlib.sha1(...).hexdigest()`
are abstract function parameters; round-trip facts assume only
`decompress (compress x) = x`.
-/

namespace Wyag

abbrev Bytes := List Nat
abbrev Str := List Char

/-- Nat value of an ASCII space. -/
def SP : Nat := 32
/-- Nat value of an ASCII newline. -/
def NL : Nat := 10
/-- Nat value of NUL. -/
def NUL : Nat := 0

/-- b'blob' -/
def bBlob : Bytes := [98, 108, 111, 98]
/-- b'commit' -/
def bCommit : Bytes := [99, 111, 109, 109, 105, 116]
/-- b'tree' -/
def bTree : Bytes := [116, 114, 101, 101]
/-- b'tag' -/
def bTag : Bytes := [116, 97, 103]
/-- b'parent' -/
def bParent : Bytes := [112, 97, 114, 101, 110, 116]

/-- First index of byte `b` in `l` (`none` when absent), 0-based. -/
def pyFindAux (b : Nat) : Bytes → Option Nat
  | [] => none
  | c :: r => if c = b then some 0 else (pyFindAux b r).map (· + 1)

/-- Python `l.find(bytes([b]), start)`: first index of `b` at or after
`start`, `-1` when absent; a negative `start` counts from the end and is
clamped at 0, as in Python. -/
def pyFind (l : Bytes) (b : Nat) (start : Int) : Int :=
  let st : Int := if start < 0 then max (start + l.length) 0 else start
  match pyFindAux b (l.drop st.toNat) with
  | some i => st + i
  | none => -1

/-- Normalize a Python slice endpoint against a list of length `n`. -/
def sliceNorm (n : Nat) (i : Int) : Nat :=
  let i' : Int := if i < 0 then i + n else i
  if i' < 0 then 0 else if i' > n then n else i'.toNat

/-- Python `l[i:j]` (step 1), including negative-index conventions. -/
def pySlice (l : Bytes) (i j : Int) : Bytes :=
  (l.take (sliceNorm l.length j)).drop (sliceNorm l.length i)

/-- Python whitespace accepted (and stripped) by `int()`. -/
def isPyWs (c : Nat) : Bool := c = 32 || c = 9 || c = 10 || c = 13 || c = 11 || c = 12

/-- Strip leading and trailing Python whitespace. -/
def stripWs (b : Bytes) : Bytes :=
  ((b.dropWhile isPyWs).reverse.dropWhile isPyWs).reverse

/-- Value of a nonempty all-ASCII-digit byte string. -/
def digitsVal (l : Bytes) : Option Nat :=
  if l = [] then none
  else if l.all (fun c => 48 ≤ c && c ≤ 57) then
    some (l.foldl (fun a c => 10 * a + (c - 48)) 0)
  else none

/-- Python `int(b.decode('ascii'))`: fails on non-ASCII bytes, strips
surrounding whitespace, allows one sign, then requires decimal digits.
(Underscore digit grouping is not modelled.) -/
def pyInt (b : Bytes) : Option Int :=
  if b.all (· < 128) then
    match stripWs b with
    | 43 :: rest => (digitsVal rest).map (fun n => (n : Int))
    | 45 :: rest => (digitsVal rest).map (fun n => -(n : Int))
    | rest => (digitsVal rest).map (fun n => (n : Int))
  else none

/-- Decimal digits of `n`, most significant first, with enough fuel
(structural recursion so that concrete frames compute by `rfl`). -/
def natDigitsGo : Nat → Nat → Bytes
  | 0, n => [48 + n]
  | fuel + 1, n => if n < 10 then [48 + n] else natDigitsGo fuel (n / 10) ++ [48 + n % 10]

/-- Python `str(n).encode()` for a natural number: decimal digits. -/
def natDigits (n : Nat) : Bytes := natDigitsGo n n

/-- Python `b.decode('ascii')`: the characters, provided all bytes < 128. -/
def pyDecodeAscii (b : Bytes) : Option Str :=
  if b.all (· < 128) then some (b.map Char.ofNat) else none

/-- `value.replace(b'\n', b'\n ')` from `serialize_commit_format`. -/
def fold : Bytes → Bytes
  | [] => []
  | c :: r => if c = NL then NL :: SP :: fold r else c :: fold r

/-- `value.replace(b'\n ', b'\n')` from `parse_commit_format`
(leftmost, non-overlapping, continuing after each replacement). -/
def unfold : Bytes → Bytes
  | [] => []
  | [c] => [c]
  | c :: d :: r => if c = NL ∧ d = SP then NL :: unfold r else c :: unfold (d :: r)

/-- Value of a commit-dict key: Python stores either a single bytes value
or a list of values for a repeated key. -/
inductive Entry where
  | one : Bytes → Entry
  | many : List Bytes → Entry
deriving DecidableEq, Repr

/-- The values of an entry in order (`[v]` for a plain value). -/
def entryVals : Entry → List Bytes
  | .one v => [v]
  | .many vs => vs

/-- An `OrderedDict[bytes, bytes | list[bytes]]`: insertion-ordered,
keys unique in every dict the code builds. -/
abbrev CommitDict := List (Bytes × Entry)

/-- `dct[k]` as lookup. -/
def lookupE : CommitDict → Bytes → Option Entry
  | [], _ => none
  | (k', e) :: rest, k => if k' = k then some e else lookupE rest k

/-- The `if key in dct: ...` update of `parse_commit_format`: append to an
existing key's (possibly promoted-to-list) entry in place, else add the
key at the end. -/
def addValue : CommitDict → Bytes → Bytes → CommitDict
  | [], k, v => [(k, .one v)]
  | (k', e) :: rest, k, v =>
    if k' = k then
      match e with
      | .one v0 => (k', .many [v0, v]) :: rest
      | .many vs => (k', .many (vs ++ [v])) :: rest
    else (k', e) :: addValue rest k v

/-- `dct[k] = e`: replace in place, or append if absent. -/
def setKey : CommitDict → Bytes → Entry → CommitDict
  | [], k, e => [(k, e)]
  | (k', e') :: rest, k, e =>
    if k' = k then (k', e) :: rest else (k', e') :: setKey rest k e

/-- The ways the commit parser can stop abnormally: `assertFail` is the
`assert newline_pos == start` failing (AssertionError), `indexError` is
`raw[end+1]` out of range, `noFuel` marks a run that never terminates in
Python (the cursor stops advancing). -/
inductive PErr where
  | noFuel
  | assertFail
  | indexError
deriving DecidableEq, Repr

/-- The `while True` scan of `parse_commit_format` looking for a newline
not followed by a space: `end = raw.find(b'\n', end + 1)`, break when
`raw[end+1] != ord(' ')`. -/
def scanEnd (raw : Bytes) : Nat → Int → Except PErr Int
  | 0, _ => .error .noFuel
  | fuel + 1, e =>
    let e2 := pyFind raw NL (e + 1)
    match raw[(e2 + 1).toNat]? with
    | none => .error .indexError
    | some c => if c = SP then scanEnd raw fuel e2 else .ok e2

/-- `parse_commit_format(raw, start, dct)`, fuel-indexed: base case when
the first newline at/after `start` precedes the first space (asserting it
sits exactly at `start`), storing `raw[start+1:]` under key `b''`;
otherwise read `key = raw[start:space_pos]`, scan for the value's
terminator, unfold the value, record it, and recurse at `end+1`. -/
def parse_commit_format (raw : Bytes) : Nat → Nat → CommitDict → Except PErr CommitDict
  | 0, _, _ => .error .noFuel
  | fuel + 1, start, dct =>
    let space_pos := pyFind raw SP start
    let newline_pos := pyFind raw NL start
    if space_pos < 0 ∨ newline_pos < space_pos then
      if newline_pos = (start : Int) then
        .ok (setKey dct [] (.one (pySlice raw (start + 1) raw.length)))
      else .error .assertFail
    else
      match scanEnd raw (fuel + 1) start with
      | .error err => .error err
      | .ok end_ =>
        let key := pySlice raw start space_pos
        let value := unfold (pySlice raw (space_pos + 1) end_)
        parse_commit_format raw fuel (end_ + 1).toNat (addValue dct key value)

/-- Fuel sufficient for every terminating run of the parser: each
successful header line advances the cursor by at least 2, so
`raw.length + 1` steps cover any run that terminates at all. -/
def parseCommit (raw : Bytes) : Except PErr CommitDict :=
  parse_commit_format raw (raw.length + 1) 0 []

/-- Failures of `serialize_commit_format`: `keyError` when the dict has
no `b''` message entry, `typeError` when the message entry is a list
(Python would add bytes and list). -/
inductive SErr where
  | keyError
  | typeError
deriving DecidableEq, Repr

/-- The header portion of `serialize_commit_format`: every key except
`b''` in dict order, one `key SP fold(value) NL` line per value. -/
def hdrBytes : CommitDict → Bytes
  | [] => []
  | (k, e) :: rest =>
    (if k = [] then [] else (entryVals e).flatMap (fun v => k ++ SP :: (fold v ++ [NL])))
      ++ hdrBytes rest

/-- `serialize_commit_format(commit_dict)`: header lines, one blank line,
then the message `commit_dict[b'']`. -/
def serialize_commit_format (d : CommitDict) : Except SErr Bytes :=
  match lookupE d [] with
  | none => .error .keyError
  | some (.many _) => .error .typeError
  | some (.one msg) => .ok (hdrBytes d ++ NL :: msg)

/-- A Python value that is either a `str` or a `bytes`: `log_graphviz`
passes both kinds of sha to `read_object`, and the distinction decides
whether `os.path.join` succeeds. -/
inductive PyS where
  | str : Str → PyS
  | bytes : Bytes → PyS
deriving DecidableEq, Repr

/-- The on-disk object store: contents of
`.git/objects/<2-char dir>/<rest>`, keyed by that path pair. -/
def Store := (Str × Str) → Option Bytes

/-- Writing a file at a path (truncating any previous content). -/
def Store.put (s : Store) (p : Str × Str) (v : Bytes) : Store :=
  fun q => if q = p then some v else s q

/-- The empty object store. -/
def Store.empty : Store := fun _ => none

/-- How `read_object` can fail.  `typeMixError` is `os.path.join`
raising `TypeError` on a bytes sha (a str gitdir mixed with bytes path
components); `notFound` is `open` raising `FileNotFoundError`;
`valueError` covers `int(...decode('ascii'))` failing; `malformed` is
the explicit `Malformed object: bad length` exception; `nameErrorTree` /
`nameErrorTag` are the `NameError`s from the undefined `GitTree` /
`GitTag` classes; `unknownType` is the explicit `Unknown type`
exception; `parseFail` propagates a commit-payload parse failure. -/
inductive RErr where
  | typeMixError
  | notFound
  | valueError
  | malformed
  | nameErrorTree
  | nameErrorTag
  | unknownType
  | parseFail : PErr → RErr
deriving DecidableEq, Repr

/-- The typed value a successful `read_object` produces: a `GitBlob`
carries its raw data, a `GitCommit` the parsed dict. -/
inductive ObjVal where
  | blob : Bytes → ObjVal
  | commit : CommitDict → ObjVal
deriving DecidableEq, Repr

/-- `get_repo_file_path(repo, 'objects', sha[:2], sha[2:])`: splits a str
sha; a bytes sha makes `os.path.join` raise `TypeError`. -/
def pathOf : PyS → Except RErr (Str × Str)
  | .str s => .ok (s.take 2, s.drop 2)
  | .bytes _ => .error .typeMixError

/-- `read_object(repo, sha)`: load and decompress the file at the derived
path, locate the first space and first NUL, check the declared length
against `len(raw) - 1 - null_pos`, then dispatch on the type tag
(`GitTree`/`GitTag` are referenced but never defined). -/
def read_object (decompress : Bytes → Bytes) (store : Store) (sha : PyS) :
    Except RErr ObjVal :=
  match pathOf sha with
  | .error err => .error err
  | .ok path =>
    match store path with
    | none => .error .notFound
    | some file =>
      let raw := decompress file
      let space_pos := pyFind raw SP 0
      let null_pos := pyFind raw NUL 0
      let object_type := pySlice raw 0 space_pos
      match pyInt (pySlice raw (space_pos + 1) null_pos) with
      | none => .error .valueError
      | some size =>
        if size ≠ (raw.length : Int) - 1 - null_pos then .error .malformed
        else
          let data := pySlice raw (null_pos + 1) raw.length
          if object_type = bCommit then
            match parseCommit data with
            | .ok d => .ok (.commit d)
            | .error err => .error (.parseFail err)
          else if object_type = bTree then .error .nameErrorTree
          else if object_type = bTag then .error .nameErrorTag
          else if object_type = bBlob then .ok (.blob data)
          else .error .unknownType

/-- The frame `write_object` hashes and stores:
`obj.type + b' ' + str(len(data)).encode() + b'\x00' + data`. -/
def frameOf (type data : Bytes) : Bytes :=
  type ++ SP :: (natDigits data.length ++ NUL :: data)

/-- `write_object(obj, to_disk)` for an object with type tag `type` whose
`serialize()` returns `data`: compute the sha of the frame, and persist
the compressed frame at the split path only when `to_disk` is truthy. -/
def write_object (compress : Bytes → Bytes) (sha1hex : Bytes → Str)
    (type data : Bytes) (store : Store) (to_disk : Bool) : Str × Store :=
  let result := frameOf type data
  let sha := sha1hex result
  if to_disk then (sha, store.put (sha.take 2, sha.drop 2) (compress result))
  else (sha, store)

/-- How `hash_object` can fail: the explicit `Unknown type` exception,
the `NameError`s from the undefined `GitTree`/`GitTag` classes, and
errors surfacing from `GitCommit`'s deserialize/serialize. -/
inductive HErr where
  | unknownType
  | nameErrorTree
  | nameErrorTag
  | parseFail : PErr → HErr
  | serFail : SErr → HErr
deriving DecidableEq, Repr

/-- `hash_object(fd, type, repo)` on data already read from `fd`. The
branch chain is the source's: `b'commit'`, `b'tree'`, `b'tag'`, then a
second (unreachable) `b'tag'` test guarding `GitBlob`, then
`raise Exception('Unknown type')`.  `to_disk=repo` is the truthiness of
the repo argument. -/
def hash_object (compress : Bytes → Bytes) (sha1hex : Bytes → Str)
    (type data : Bytes) (store : Store) (to_disk : Bool) :
    Except HErr (Str × Store) :=
  if type = bCommit then
    match parseCommit data with
    | .error err => .error (.parseFail err)
    | .ok d =>
      match serialize_commit_format d with
      | .error err => .error (.serFail err)
      | .ok payload => .ok (write_object compress sha1hex bCommit payload store to_disk)
  else if type = bTree then .error .nameErrorTree
  else if type = bTag then .error .nameErrorTag
  else .error .unknownType

/-- What stops a `log_graphviz` walk: a failing `read_object`, the
`assert commit.type == b'commit'` failing, `p.decode('ascii')` failing,
or (model artifact) running out of fuel. -/
inductive WStop where
  | noFuel
  | assertFail
  | decodeFail
  | readFail : RErr → WStop
deriving DecidableEq, Repr

/-- State threaded through `log_graphviz`: the edges printed so far, the
`seen` set (insertion order kept for readability), and the exception, if
one has been raised. -/
structure WState where
  out : List (PyS × Str)
  seen : List PyS
  err : Option WStop
deriving DecidableEq, Repr

/-- The `for p in parents` loop of `log_graphviz`: print the edge for
each parent (decoding it first) and hand the raw bytes parent to the
recursive walk `step`; an exception recorded in the state stops the
loop's effects. -/
def walkParents (step : PyS → WState → WState) (sha : PyS) :
    List Bytes → WState → WState
  | [], st => st
  | p :: ps, st =>
    if st.err.isSome then st
    else
      match pyDecodeAscii p with
      | none => { st with err := some .decodeFail }
      | some pstr =>
        walkParents step sha ps
          (step (.bytes p) { st with out := st.out ++ [(sha, pstr)] })

/-- `log_graphviz(repo, sha, seen)`: skip seen shas, mark seen, read the
object, assert it is a commit, then for each value of the `parent` key
print `c_<sha> -> c_<parent.decode('ascii')>` and recurse with the raw
(bytes) parent as the next sha. A raised exception aborts the walk but
keeps what was already printed. -/
def log_graphviz (decompress : Bytes → Bytes) (store : Store) :
    Nat → PyS → WState → WState
  | 0, _, st => { st with err := some .noFuel }
  | fuel + 1, sha, st =>
    if st.err.isSome then st
    else if sha ∈ st.seen then st
    else
      let st1 : WState := { st with seen := st.seen ++ [sha] }
      match read_object decompress store sha with
      | .error err => { st1 with err := some (.readFail err) }
      | .ok (.blob _) => { st1 with err := some .assertFail }
      | .ok (.commit d) =>
        match lookupE d bParent with
        | none => st1
        | some ent =>
          walkParents (log_graphviz decompress store fuel) sha (entryVals ent) st1

/-! Concrete fixtures used by the closed theorems below. -/

/-- A store whose only object decompresses (under `id`) to the frame
`tree 0 NUL` at path `ab/cd`. -/
def stTree : Store := Store.empty.put (['a', 'b'], ['c', 'd']) (bTree ++ [SP, 48, NUL])

/-- A store whose only object decompresses to the frame `tag 0 NUL`. -/
def stTagFrame : Store := Store.empty.put (['a', 'b'], ['c', 'd']) (bTag ++ [SP, 48, NUL])

/-- A store whose only object decompresses to `blob 7x` — seven bytes,
with a space but no NUL at all. -/
def stNoNul : Store := Store.empty.put (['f', 'f'], ['f', 'f']) [98, 108, 111, 98, 32, 55, 120]

/-- A store whose only object decompresses to `blob 5 NUL hi`: declared
length 5, actual payload length 2. -/
def stBadLen : Store :=
  Store.empty.put (['f', 'f'], ['f', 'f']) [98, 108, 111, 98, 32, 53, 0, 104, 105]

/-- A store holding the frame of blob `hi` at path zz/00 — a path whose
id no digest of that frame equals. -/
def stWrongId : Store := Store.empty.put (['z', 'z'], ['0', '0']) (frameOf bBlob [104, 105])

/-- Commit payload of the diamond root A: no parent, message `A`. -/
def payloadA : Bytes := [10, 65]
/-- Commit payload of B: parent aaaa, message `B`. -/
def payloadB : Bytes := bParent ++ SP :: ([97, 97, 97, 97] ++ [10, 10, 66])
/-- Commit payload of C: parent aaaa, message `C`. -/
def payloadC : Bytes := bParent ++ SP :: ([97, 97, 97, 97] ++ [10, 10, 67])
/-- Commit payload of the merge commit D: parents bbbb and cccc, message `D`. -/
def payloadD : Bytes :=
  bParent ++ SP :: ([98, 98, 98, 98]
    ++ NL :: (bParent ++ SP :: ([99, 99, 99, 99] ++ [10, 10, 68])))

/-- The diamond history store: A at aa/aa, B at bb/bb, C at cc/cc, D at
dd/dd, each a commit frame over the payload above (uncompressed, read
with `decompress = id`). -/
def diamondStore : Store :=
  ((((Store.empty.put (['a', 'a'], ['a', 'a']) (frameOf bCommit payloadA)).put
      (['b', 'b'], ['b', 'b']) (frameOf bCommit payloadB)).put
      (['c', 'c'], ['c', 'c']) (frameOf bCommit payloadC)).put
      (['d', 'd'], ['d', 'd']) (frameOf bCommit payloadD))

/-- A fixed stand-in digest function for closed witnesses (any function
works: the model never equates it with the store path contents). -/
def shaFix : Bytes → Str := fun _ => ['e', 'e', 'f', 'f']

/-! Well-formedness of commit records, and the byte image the serializer
produces for them. -/

/-- A usable header key: nonempty, and free of space and newline. -/
def validKey (k : Bytes) : Bool :=
  !k.isEmpty && k.all (fun c => !(c == SP) && !(c == NL))

/-- A reachable entry shape: a plain value, or a list of at least two
values (the parser only ever builds lists by promoting a pair). -/
def validEntry : Entry → Bool
  | .one _ => true
  | .many vs => decide (2 ≤ vs.length)

/-- Well-formed header part of a commit record: valid keys and entries,
keys pairwise distinct. -/
def wfHeaders (hs : CommitDict) : Bool :=
  hs.all (fun ke => validKey ke.1 && validEntry ke.2) && decide (hs.map Prod.fst).Nodup

/-- One serialized header line `key SP fold(value) NL`. -/
def lineB (k v : Bytes) : Bytes := k ++ SP :: (fold v ++ [NL])

/-- The (key, value) lines of a header list, one per value in order. -/
def hdrLines (hs : CommitDict) : List (Bytes × Bytes) :=
  hs.flatMap (fun ke => (entryVals ke.2).map (fun v => (ke.1, v)))

/-- The bytes of a list of header lines. -/
def linesBytes (L : List (Bytes × Bytes)) : Bytes :=
  L.flatMap (fun kv => lineB kv.1 kv.2)

/-- The full serialized image of headers `hs` plus message `msg`. -/
def serBytes (hs : CommitDict) (msg : Bytes) : Bytes :=
  linesBytes (hdrLines hs) ++ NL :: msg

/-! Theorems. First, a toolbox about the Python-style primitives. -/

theorem pyFindAux_eq_none {b : Nat} {l : Bytes} :
    pyFindAux b l = none ↔ b ∉ l := by
  induction l with
  | nil => simp [pyFindAux]
  | cons c r ih =>
    by_cases hc : c = b
    · subst hc
      rw [pyFindAux, if_pos rfl]
      simp
    · rw [pyFindAux, if_neg hc]
      simp only [Option.map_eq_none', ih, List.mem_cons]
      constructor
      · intro hn h2
        rcases h2 with h3 | h4
        · exact hc h3.symm
        · exact hn h4
      · intro hn h2
        exact hn (Or.inr h2)

theorem pyFindAux_append_not_mem {b : Nat} {u : Bytes} (h : b ∉ u) (s : Bytes) :
    pyFindAux b (u ++ s) = (pyFindAux b s).map (· + u.length) := by
  induction u with
  | nil => simp [Option.map_id']
  | cons c r ih =>
    have hc : c ≠ b := fun hc => h (by simp [hc])
    have hr : b ∉ r := fun hr => h (by simp [hr])
    rw [List.cons_append, pyFindAux, if_neg hc, ih hr]
    cases pyFindAux b s with
    | none => simp
    | some v => simp; omega

theorem pyFindAux_first {b : Nat} {u : Bytes} (h : b ∉ u) (s : Bytes) :
    pyFindAux b (u ++ b :: s) = some u.length := by
  rw [pyFindAux_append_not_mem h]
  simp [pyFindAux]

theorem pyFindAux_split {b : Nat} {l : Bytes} {i : Nat}
    (h : pyFindAux b l = some i) :
    ∃ u v, l = u ++ b :: v ∧ u.length = i ∧ b ∉ u := by
  induction l generalizing i with
  | nil => simp [pyFindAux] at h
  | cons c r ih =>
    by_cases hc : c = b
    · subst hc
      refine ⟨[], r, by simp, ?_, by simp⟩
      rw [pyFindAux, if_pos rfl] at h
      simp at h
      simp only [List.length_nil]
      omega
    · rw [pyFindAux, if_neg hc] at h
      rw [Option.map_eq_some'] at h
      obtain ⟨j, hj, hij⟩ := h
      obtain ⟨u, v, hl, hu, hb⟩ := ih hj
      refine ⟨c :: u, v, by simp [hl], by simp [hu]; omega, ?_⟩
      intro hm
      rcases List.mem_cons.mp hm with h1 | h2
      · exact hc h1.symm
      · exact hb h2

theorem pyFind_append (u s : Bytes) (b : Nat) :
    pyFind (u ++ s) b u.length =
      match pyFindAux b s with
      | some i => ((u.length + i : Nat) : Int)
      | none => -1 := by
  unfold pyFind
  have h1 : ¬ (((u.length : Nat) : Int) < 0) := by omega
  simp only [h1, if_false, Int.toNat_natCast, List.drop_left]
  cases pyFindAux b s with
  | none => simp
  | some v => simp

theorem pyFind_zero (l : Bytes) (b : Nat) :
    pyFind l b 0 =
      match pyFindAux b l with
      | some i => (i : Int)
      | none => -1 := by
  have h := pyFind_append [] l b
  simp only [List.nil_append, List.length_nil, Nat.cast_zero, Nat.zero_add] at h
  rw [h]

theorem sliceNorm_of_le {n i : Nat} (h : i ≤ n) : sliceNorm n i = i := by
  simp only [sliceNorm]
  split_ifs <;> omega

theorem pySlice_take (u s : Bytes) (j : Nat) :
    pySlice (u ++ s) u.length (u.length + j) = s.take j := by
  unfold pySlice
  have htot : (u ++ s).length = u.length + s.length := by simp
  rw [htot]
  have hcast : ((u.length : Int) + (j : Int)) = ((u.length + j : Nat) : Int) := by push_cast; ring
  by_cases hj : j ≤ s.length
  · have h1 : sliceNorm (u.length + s.length) ((u.length + j : Nat) : Int) = u.length + j :=
      sliceNorm_of_le (by omega)
    have h2 : sliceNorm (u.length + s.length) ((u.length : Nat) : Int) = u.length :=
      sliceNorm_of_le (by omega)
    rw [hcast, h1, h2, List.take_append_eq_append_take]
    rw [List.take_of_length_le (by omega : u.length ≤ u.length + j)]
    rw [show u.length + j - u.length = j by omega, List.drop_left]
  · have hs : s.take j = s := List.take_of_length_le (by omega)
    have h1 : sliceNorm (u.length + s.length) ((u.length + j : Nat) : Int) = u.length + s.length := by
      simp only [sliceNorm]
      split_ifs <;> omega
    have h2 : sliceNorm (u.length + s.length) ((u.length : Nat) : Int) = u.length :=
      sliceNorm_of_le (by omega)
    rw [hcast, h1, h2, hs]
    rw [List.take_of_length_le (by simp : (u ++ s).length ≤ u.length + s.length), List.drop_left]

theorem pySlice_front (u s : Bytes) : pySlice (u ++ s) 0 u.length = u := by
  have h := pySlice_take [] (u ++ s) u.length
  simp only [List.nil_append, List.length_nil, Nat.cast_zero, Nat.zero_add, zero_add] at h
  rw [h, List.take_left]

theorem pySlice_rest (u s : Bytes) : pySlice (u ++ s) u.length (u ++ s).length = s := by
  have h := pySlice_take u s s.length
  rw [List.take_of_length_le (by omega : s.length ≤ s.length)] at h
  simp only [List.length_append, Nat.cast_add]
  exact h

theorem getElem?_after (u : Bytes) (c : Nat) (w : Bytes) :
    (u ++ c :: w)[u.length]? = some c := by
  induction u with
  | nil => simp
  | cons x r ih => simpa using ih

theorem natDigitsGo_fuel :
    ∀ f1 f2 n : Nat, n ≤ f1 → n ≤ f2 → natDigitsGo f1 n = natDigitsGo f2 n := by
  intro f1
  induction f1 with
  | zero =>
    intro f2 n h1 h2
    have hn : n = 0 := by omega
    subst hn
    cases f2 with
    | zero => rfl
    | succ g => simp [natDigitsGo]
  | succ f ih =>
    intro f2 n h1 h2
    cases f2 with
    | zero =>
      have hn : n = 0 := by omega
      subst hn
      simp [natDigitsGo]
    | succ g =>
      by_cases hn : n < 10
      · simp [natDigitsGo, hn]
      · rw [natDigitsGo, natDigitsGo, if_neg hn, if_neg hn]
        have hd : n / 10 < n := Nat.div_lt_self (by omega) (by omega)
        rw [ih f (n / 10) (by omega) (by omega)]
        rw [ih g (n / 10) (by omega) (by omega)]

theorem natDigits_eq (n : Nat) :
    natDigits n = if n < 10 then [48 + n] else natDigits (n / 10) ++ [48 + n % 10] := by
  by_cases h : n < 10
  · rw [if_pos h]
    cases n with
    | zero => rfl
    | succ m => unfold natDigits; rw [natDigitsGo, if_pos h]
  · rw [if_neg h]
    obtain ⟨m, rfl⟩ : ∃ m, n = m + 1 := ⟨n - 1, by omega⟩
    unfold natDigits
    rw [natDigitsGo, if_neg h]
    have hd : (m + 1) / 10 < m + 1 := Nat.div_lt_self (by omega) (by omega)
    rw [natDigitsGo_fuel m ((m + 1) / 10) ((m + 1) / 10) (by omega) (by omega)]

theorem natDigits_bounds (n : Nat) : ∀ c ∈ natDigits n, 48 ≤ c ∧ c ≤ 57 := by
  induction n using Nat.strong_induction_on with
  | _ n ih =>
    rw [natDigits_eq]
    by_cases h : n < 10
    · rw [if_pos h]
      intro c hc
      simp at hc
      omega
    · rw [if_neg h]
      intro c hc
      rcases List.mem_append.mp hc with h1 | h2
      · exact ih (n / 10) (Nat.div_lt_self (by omega) (by omega)) c h1
      · have hm : n % 10 < 10 := Nat.mod_lt n (by omega)
        simp at h2
        omega

theorem natDigits_ne_nil (n : Nat) : natDigits n ≠ [] := by
  rw [natDigits_eq]
  by_cases h : n < 10
  · simp [h]
  · simp [h]

theorem foldl_natDigits (n : Nat) : ∀ acc : Nat,
    (natDigits n).foldl (fun a c => 10 * a + (c - 48)) acc =
      acc * 10 ^ (natDigits n).length + n := by
  induction n using Nat.strong_induction_on with
  | _ n ih =>
    intro acc
    rw [natDigits_eq]
    by_cases h : n < 10
    · rw [if_pos h]
      simp only [List.foldl_cons, List.foldl_nil, List.length_cons, List.length_nil,
        zero_add, pow_one]
      have hc : acc * 10 = 10 * acc := by ring
      rw [hc]
      omega
    · rw [if_neg h]
      rw [List.foldl_append, ih (n / 10) (Nat.div_lt_self (by omega) (by omega)) acc]
      simp only [List.foldl_cons, List.foldl_nil, List.length_append, List.length_cons,
        List.length_nil, zero_add, pow_succ]
      rw [show acc * (10 ^ (natDigits (n / 10)).length * 10) =
        acc * 10 ^ (natDigits (n / 10)).length * 10 from by ring]
      omega

theorem digitsVal_natDigits (n : Nat) : digitsVal (natDigits n) = some n := by
  unfold digitsVal
  rw [if_neg (natDigits_ne_nil n)]
  rw [if_pos]
  · rw [foldl_natDigits n 0]
    simp
  · rw [List.all_eq_true]
    intro c hc
    have hb := natDigits_bounds n c hc
    simp only [Bool.and_eq_true, decide_eq_true_eq]
    omega

theorem isPyWs_of_digit {c : Nat} (h1 : 48 ≤ c) (h2 : c ≤ 57) : isPyWs c = false := by
  unfold isPyWs
  simp only [Bool.or_eq_false_iff, decide_eq_false_iff_not]
  omega

theorem stripWs_eq_self {l : Bytes} (h : ∀ c ∈ l, isPyWs c = false) : stripWs l = l := by
  unfold stripWs
  have h1 : l.dropWhile isPyWs = l := by
    cases l with
    | nil => rfl
    | cons c r =>
      rw [List.dropWhile_cons_of_neg]
      simp [h c (by simp)]
  rw [h1]
  have h2 : l.reverse.dropWhile isPyWs = l.reverse := by
    cases hr : l.reverse with
    | nil => rfl
    | cons c r =>
      rw [List.dropWhile_cons_of_neg]
      have hc : c ∈ l := by
        have hm : c ∈ l.reverse := by rw [hr]; simp
        simpa using hm
      simp [h c hc]
  rw [h2, List.reverse_reverse]

theorem pyInt_natDigits (n : Nat) : pyInt (natDigits n) = some (n : Int) := by
  unfold pyInt
  rw [if_pos]
  · rw [stripWs_eq_self (fun c hc => by
      have hb := natDigits_bounds n c hc
      exact isPyWs_of_digit hb.1 hb.2)]
    obtain ⟨c, t, hct⟩ : ∃ c t, natDigits n = c :: t := by
      cases hl : natDigits n with
      | nil => exact absurd hl (natDigits_ne_nil n)
      | cons c t => exact ⟨c, t, rfl⟩
    have hb : 48 ≤ c ∧ c ≤ 57 := natDigits_bounds n c (by rw [hct]; simp)
    rw [hct]
    split
    · rename_i rest heq
      injection heq with h1 h2
      omega
    · rename_i rest heq
      injection heq with h1 h2
      omega
    · rw [← hct, digitsVal_natDigits]
      rfl
  · rw [List.all_eq_true]
    intro c hc
    have hb := natDigits_bounds n c hc
    simp only [decide_eq_true_eq]
    omega

/-! Reading back a well-formed frame. -/

theorem frame_space {t : Bytes} (htS : SP ∉ t) (P : Bytes) :
    pyFind (frameOf t P) SP 0 = (t.length : Int) := by
  rw [show frameOf t P = t ++ SP :: (natDigits P.length ++ NUL :: P) from rfl]
  rw [pyFind_zero, pyFindAux_first htS]

theorem frame_nul {t : Bytes} (htN : NUL ∉ t) (P : Bytes) :
    pyFind (frameOf t P) NUL 0 =
      (t.length : Int) + 1 + ((natDigits P.length).length : Int) := by
  have hshape : frameOf t P = (t ++ SP :: natDigits P.length) ++ NUL :: P := by
    simp [frameOf]
  have hmem : NUL ∉ t ++ SP :: natDigits P.length := by
    intro hm
    rcases List.mem_append.mp hm with h1 | h2
    · exact htN h1
    · rcases List.mem_cons.mp h2 with h3 | h4
      · exact absurd h3 (by decide)
      · have hb := natDigits_bounds P.length NUL h4
        exact absurd hb (by decide)
  rw [hshape, pyFind_zero, pyFindAux_first hmem]
  simp only [List.length_append, List.length_cons]
  push_cast
  ring

/-- What `read_object` does on a stored, well-framed object: type tag
`t` (free of space and NUL) and payload `P`, regardless of the id it was
looked up under. The result only dispatches on `t`. -/
theorem read_object_frame (decompress : Bytes → Bytes) (store : Store) (X : Str)
    (file : Bytes) (t P : Bytes) (htS : SP ∉ t) (htN : NUL ∉ t)
    (hst : store (X.take 2, X.drop 2) = some file)
    (hdec : decompress file = frameOf t P) :
    read_object decompress store (.str X) =
      (if t = bCommit then
        match parseCommit P with
        | .ok d => .ok (.commit d)
        | .error err => .error (.parseFail err)
      else if t = bTree then .error .nameErrorTree
      else if t = bTag then .error .nameErrorTag
      else if t = bBlob then .ok (.blob P)
      else .error .unknownType) := by
  have htype : pySlice (frameOf t P) 0 (t.length : Int) = t :=
    pySlice_front t (SP :: (natDigits P.length ++ NUL :: P))
  have hdecl : pySlice (frameOf t P) ((t.length : Int) + 1)
      ((t.length : Int) + 1 + ((natDigits P.length).length : Int)) = natDigits P.length := by
    have h := pySlice_take (t ++ [SP]) (natDigits P.length ++ NUL :: P)
      (natDigits P.length).length
    rw [List.take_left] at h
    have hlist : (t ++ [SP]) ++ (natDigits P.length ++ NUL :: P) = frameOf t P := by
      simp [frameOf]
    have hlen : (t ++ [SP]).length = t.length + 1 := by simp
    rw [hlist, hlen] at h
    push_cast at h ⊢
    exact h
  have hdata : pySlice (frameOf t P)
      ((t.length : Int) + 1 + ((natDigits P.length).length : Int) + 1)
      ((frameOf t P).length : Int) = P := by
    have h := pySlice_rest (t ++ SP :: (natDigits P.length ++ [NUL])) P
    have hlist : (t ++ SP :: (natDigits P.length ++ [NUL])) ++ P = frameOf t P := by
      simp [frameOf]
    have hlen : (t ++ SP :: (natDigits P.length ++ [NUL])).length =
        t.length + 1 + (natDigits P.length).length + 1 := by
      simp
      omega
    rw [hlist, hlen] at h
    push_cast at h ⊢
    exact h
  have hflen : ((frameOf t P).length : Int) =
      (t.length : Int) + 1 + ((natDigits P.length).length : Int) + 1 + (P.length : Int) := by
    simp only [frameOf, List.length_append, List.length_cons]
    push_cast
    ring
  simp only [read_object, pathOf, hst, hdec]
  rw [frame_space htS P, frame_nul htN P, htype, hdecl, pyInt_natDigits, hdata]
  split
  · rename_i heq
    exact absurd heq (by simp)
  · rename_i size hsize
    injection hsize with hs
    subst hs
    rw [if_neg (by rw [hflen]; omega)]

/-! Folding: every newline in a folded value is followed by a space, and
unfolding a folded value restores it. -/

theorem fold_eq_nil_iff {v : Bytes} : fold v = [] ↔ v = [] := by
  cases v with
  | nil => simp [fold]
  | cons c r =>
    rw [fold]
    by_cases h : c = NL <;> simp [h]

theorem unfold_cons_ne {c : Nat} (hc : c ≠ NL) (l : Bytes) :
    unfold (c :: l) = c :: unfold l := by
  cases l with
  | nil => rfl
  | cons d r =>
    rw [unfold, if_neg]
    intro h
    exact hc h.1

theorem unfold_fold (v : Bytes) : unfold (fold v) = v := by
  induction v with
  | nil => rfl
  | cons c r ih =>
    by_cases h : c = NL
    · subst h
      rw [fold, if_pos rfl, unfold, if_pos ⟨rfl, rfl⟩, ih]
    · rw [fold, if_neg h, unfold_cons_ne h, ih]

/-- Every newline in the list is immediately followed by a space (and
the list does not end in a newline). The shape `fold` guarantees and the
terminator scan relies on. -/
def nlFolded : Bytes → Bool
  | [] => true
  | [c] => c != NL
  | c :: d :: r => (c != NL || d == SP) && nlFolded (d :: r)

theorem nlFolded_tail {c : Nat} {l : Bytes} (h : nlFolded (c :: l) = true) :
    nlFolded l = true := by
  cases l with
  | nil => rfl
  | cons d r =>
    rw [nlFolded, Bool.and_eq_true] at h
    exact h.2

theorem nlFolded_cons_sp {l : Bytes} (h : nlFolded l = true) :
    nlFolded (SP :: l) = true := by
  cases l with
  | nil => rfl
  | cons d r =>
    rw [nlFolded, Bool.and_eq_true]
    exact ⟨by simp [SP, NL], h⟩

theorem nlFolded_of_no_nl {l : Bytes} (h : ∀ c ∈ l, c ≠ NL) : nlFolded l = true := by
  induction l with
  | nil => rfl
  | cons c r ih =>
    cases r with
    | nil =>
      rw [nlFolded]
      simpa using h c (by simp)
    | cons d r2 =>
      rw [nlFolded, Bool.and_eq_true]
      refine ⟨?_, ih (fun x hx => h x (by simp [hx]))⟩
      have hc := h c (by simp)
      simp [hc]

theorem nlFolded_append_no_nl {a b : Bytes} (ha : ∀ c ∈ a, c ≠ NL)
    (hb : nlFolded b = true) : nlFolded (a ++ b) = true := by
  induction a with
  | nil => simpa using hb
  | cons x a2 ih =>
    have hx := ha x (by simp)
    have ha2 : ∀ c ∈ a2, c ≠ NL := fun c hc => ha c (by simp [hc])
    rw [List.cons_append]
    cases hab : a2 ++ b with
    | nil =>
      rw [nlFolded]
      simpa using hx
    | cons y t =>
      rw [nlFolded, Bool.and_eq_true, ← hab]
      exact ⟨by simp [hx], ih ha2⟩

theorem nlFolded_fold (v : Bytes) : nlFolded (fold v) = true := by
  induction v with
  | nil => rfl
  | cons c r ih =>
    by_cases h : c = NL
    · subst h
      rw [fold, if_pos rfl, nlFolded, Bool.and_eq_true]
      exact ⟨by simp [SP], nlFolded_cons_sp ih⟩
    · rw [fold, if_neg h]
      cases hf : fold r with
      | nil =>
        rw [nlFolded]
        simpa using h
      | cons d r2 =>
        rw [nlFolded, Bool.and_eq_true, ← hf]
        exact ⟨by simp [h], ih⟩

theorem nlFolded_suffix {a b : Bytes} (h : nlFolded (a ++ b) = true) :
    nlFolded b = true := by
  induction a with
  | nil => simpa using h
  | cons x a2 ih =>
    rw [List.cons_append] at h
    exact ih (nlFolded_tail h)

theorem nlFolded_split {a r : Bytes} (h : nlFolded (a ++ NL :: r) = true) :
    ∃ r2, r = SP :: r2 := by
  have h2 : nlFolded (NL :: r) = true := nlFolded_suffix h
  cases r with
  | nil =>
    rw [nlFolded] at h2
    simp at h2
  | cons d r2 =>
    rw [nlFolded, Bool.and_eq_true] at h2
    have hd : d = SP := by simpa using h2.1
    exact ⟨r2, by rw [hd]⟩

/-- The terminator scan, started just before a stretch `t` whose
newlines are all folded (newline-space), stops exactly at the newline
that follows `t`, because the byte after it is not a space. -/
theorem scanEnd_ok (fuel : Nat) :
    ∀ (t u w : Bytes) (c : Nat),
    nlFolded t = true → c ≠ SP → t.count NL + 1 ≤ fuel →
    scanEnd (u ++ t ++ NL :: c :: w) fuel ((u.length : Int) - 1) =
      .ok ((u.length : Int) + (t.length : Int)) := by
  induction fuel with
  | zero =>
    intro t u w c _ _ hf
    omega
  | succ f ih =>
    intro t u w c hnf hc hf
    simp only [scanEnd]
    have he : ((u.length : Int) - 1) + 1 = (u.length : Int) := by ring
    rw [he, List.append_assoc]
    rcases hfa : pyFindAux NL t with _ | i
    · have hnotmem : NL ∉ t := pyFindAux_eq_none.mp hfa
      have hfind : pyFind (u ++ (t ++ NL :: c :: w)) NL (u.length : Int) =
          ((u.length + t.length : Nat) : Int) := by
        rw [pyFind_append, pyFindAux_first hnotmem]
      rw [hfind]
      have htn : (((u.length + t.length : Nat) : Int) + 1).toNat = u.length + t.length + 1 := by
        omega
      rw [htn]
      have hget : (u ++ (t ++ NL :: c :: w))[u.length + t.length + 1]? = some c := by
        have hl : u ++ (t ++ NL :: c :: w) = (u ++ t ++ [NL]) ++ c :: w := by simp
        have hlen : u.length + t.length + 1 = (u ++ t ++ [NL]).length := by simp; omega
        rw [hl, hlen, getElem?_after]
      rw [hget]
      split
      · rename_i habs
        exact absurd habs (by simp)
      · rename_i c1 hc1
        injection hc1 with hcc
        subst hcc
        rw [if_neg hc]
        congr 1 <;> omega
    · obtain ⟨t0, r, ht, hlen0, hnm⟩ := pyFindAux_split hfa
      rw [ht] at hnf hf ⊢
      obtain ⟨t1, hr⟩ := nlFolded_split hnf
      rw [hr] at hnf hf ⊢
      have hfind : pyFind (u ++ ((t0 ++ NL :: SP :: t1) ++ NL :: c :: w)) NL
          (u.length : Int) = ((u.length + t0.length : Nat) : Int) := by
        rw [pyFind_append]
        have hstep : pyFindAux NL ((t0 ++ NL :: SP :: t1) ++ NL :: c :: w) = some t0.length := by
          have hl : (t0 ++ NL :: SP :: t1) ++ NL :: c :: w =
              t0 ++ NL :: (SP :: t1 ++ NL :: c :: w) := by simp
          rw [hl, pyFindAux_first hnm]
        rw [hstep]
      rw [hfind]
      have htn : (((u.length + t0.length : Nat) : Int) + 1).toNat =
          u.length + t0.length + 1 := by omega
      rw [htn]
      have hget : (u ++ ((t0 ++ NL :: SP :: t1) ++ NL :: c :: w))[u.length + t0.length + 1]? =
          some SP := by
        have hl : u ++ ((t0 ++ NL :: SP :: t1) ++ NL :: c :: w) =
            (u ++ t0 ++ [NL]) ++ SP :: (t1 ++ NL :: c :: w) := by simp
        have hlen : u.length + t0.length + 1 = (u ++ t0 ++ [NL]).length := by simp; omega
        rw [hl, hlen, getElem?_after]
      rw [hget]
      split
      · rename_i habs
        exact absurd habs (by simp)
      · rename_i c1 hc1
        injection hc1 with hcc
        rw [← hcc, if_pos rfl]
        have hnf2 : nlFolded (SP :: t1) = true := by
          have hl : t0 ++ NL :: SP :: t1 = (t0 ++ [NL]) ++ SP :: t1 := by simp
          rw [hl] at hnf
          exact nlFolded_suffix hnf
        have hcount : (SP :: t1).count NL + 1 ≤ f := by
          have h0 : t0.count NL = 0 := List.count_eq_zero.mpr hnm
          rw [List.count_append, List.count_cons_self, h0] at hf
          omega
        have hl2 : u ++ ((t0 ++ NL :: SP :: t1) ++ NL :: c :: w) =
            (u ++ t0 ++ [NL]) ++ (SP :: t1) ++ NL :: c :: w := by simp
        have harg : ((u.length + t0.length : Nat) : Int) =
            (((u ++ t0 ++ [NL]).length : Nat) : Int) - 1 := by
          simp
          push_cast
          ring
        rw [hl2, harg, ih (SP :: t1) (u ++ t0 ++ [NL]) w c hnf2 hc hcount]
        congr 1 <;> (simp only [List.length_append, List.length_cons, List.length_nil]; push_cast; ring)

theorem validKey_spec {k : Bytes} (h : validKey k = true) :
    k ≠ [] ∧ ∀ c ∈ k, c ≠ SP ∧ c ≠ NL := by
  unfold validKey at h
  rw [Bool.and_eq_true, List.all_eq_true] at h
  refine ⟨by simpa using h.1, fun c hc => ?_⟩
  have h2 := h.2 c hc
  rw [Bool.and_eq_true] at h2
  constructor
  · simpa using h2.1
  · simpa using h2.2

theorem linesBytes_cons (k v : Bytes) (L : List (Bytes × Bytes)) :
    linesBytes ((k, v) :: L) = lineB k v ++ linesBytes L := by
  simp [linesBytes]

theorem lineB_shape (k v R : Bytes) :
    lineB k v ++ R = k ++ SP :: (fold v ++ NL :: R) := by
  simp [lineB]

theorem linesBytes_head (L : List (Bytes × Bytes)) (msg : Bytes)
    (h : ∀ kv ∈ L, validKey kv.1 = true) :
    ∃ c w, linesBytes L ++ NL :: msg = c :: w ∧ c ≠ SP := by
  cases L with
  | nil => exact ⟨NL, msg, rfl, by decide⟩
  | cons kv L2 =>
    obtain ⟨k, v⟩ := kv
    have hk := validKey_spec (h (k, v) (by simp))
    obtain ⟨kh, kt, hkk⟩ : ∃ kh kt, k = kh :: kt := by
      cases k with
      | nil => exact absurd rfl hk.1
      | cons kh kt => exact ⟨kh, kt, rfl⟩
    refine ⟨kh, kt ++ SP :: (fold v ++ NL :: (linesBytes L2 ++ NL :: msg)), ?_, ?_⟩
    · rw [linesBytes_cons, List.append_assoc, lineB_shape, hkk]
      rfl
    · exact (hk.2 kh (by rw [hkk]; simp)).1

/-- The heart of the round-trip: parsing the serialized lines `L`
followed by a blank line and the message, starting at the cursor
position right after `pre`, accumulates exactly one `addValue` per line
and finishes by storing the message. -/
theorem parse_lines (msg : Bytes) :
    ∀ (L : List (Bytes × Bytes)) (fuel : Nat) (pre : Bytes) (dct : CommitDict),
    (∀ kv ∈ L, validKey kv.1 = true) →
    (linesBytes L ++ NL :: msg).length + 1 ≤ fuel →
    parse_commit_format (pre ++ (linesBytes L ++ NL :: msg)) fuel pre.length dct =
      .ok (setKey (L.foldl (fun d kv => addValue d kv.1 kv.2) dct) [] (.one msg)) := by
  intro L
  induction L with
  | nil =>
    intro fuel pre dct _ hf
    obtain ⟨f, rfl⟩ : ∃ f, fuel = f + 1 := ⟨fuel - 1, by omega⟩
    show parse_commit_format (pre ++ (NL :: msg)) (f + 1) pre.length dct = _
    have hnl : pyFind (pre ++ (NL :: msg)) NL pre.length = (pre.length : Int) := by
      rw [pyFind_append]
      rw [show pyFindAux NL (NL :: msg) = some 0 from by rw [pyFindAux, if_pos rfl]]
      simp
    have hmsg : pySlice (pre ++ (NL :: msg)) ((pre.length : Int) + 1)
        ((pre ++ (NL :: msg)).length : Int) = msg := by
      have h := pySlice_rest (pre ++ [NL]) msg
      have hl : (pre ++ [NL]) ++ msg = pre ++ (NL :: msg) := by simp
      have hlen : (pre ++ [NL]).length = pre.length + 1 := by simp
      rw [hl, hlen] at h
      push_cast at h
      exact h
    simp only [parse_commit_format]
    rw [hnl]
    have hmap : pyFindAux SP (NL :: msg) = (pyFindAux SP msg).map (· + 1) := by
      rw [pyFindAux, if_neg (by decide)]
    cases hfa : pyFindAux SP msg with
    | none =>
      have hsp : pyFind (pre ++ (NL :: msg)) SP pre.length = -1 := by
        rw [pyFind_append, hmap, hfa]
        rfl
      rw [hsp, if_pos (Or.inl (by decide)), if_pos rfl, hmsg]
      rfl
    | some i =>
      have hsp : pyFind (pre ++ (NL :: msg)) SP pre.length = ((pre.length + (i + 1) : Nat) : Int) := by
        rw [pyFind_append, hmap, hfa]
        rfl
      rw [hsp, if_pos (Or.inr (by push_cast; omega)), if_pos rfl, hmsg]
      rfl
  | cons kv L2 ih =>
    intro fuel pre dct hwf hf
    obtain ⟨k, v⟩ := kv
    obtain ⟨f, rfl⟩ : ∃ f, fuel = f + 1 := ⟨fuel - 1, by omega⟩
    have hk := validKey_spec (hwf (k, v) (by simp))
    obtain ⟨kh, kt, hkk⟩ : ∃ kh kt, k = kh :: kt := by
      cases k with
      | nil => exact absurd rfl hk.1
      | cons kh kt => exact ⟨kh, kt, rfl⟩
    have hwf2 : ∀ kv ∈ L2, validKey kv.1 = true := fun kv hkv => hwf kv (by simp [hkv])
    obtain ⟨c, w, hcw, hcsp⟩ := linesBytes_head L2 msg hwf2
    have hkSP : SP ∉ k := fun hm => ((hk.2 SP hm).1) rfl
    have hkNL : NL ∉ k := fun hm => ((hk.2 NL hm).2) rfl
    -- the raw bytes, reassociated around the first line
    have hraw : pre ++ (linesBytes ((k, v) :: L2) ++ NL :: msg) =
        pre ++ (k ++ SP :: (fold v ++ NL :: (linesBytes L2 ++ NL :: msg))) := by
      rw [linesBytes_cons, List.append_assoc, lineB_shape]
    simp only [parse_commit_format]
    rw [hraw]
    -- space position
    have hsp : pyFind (pre ++ (k ++ SP :: (fold v ++ NL :: (linesBytes L2 ++ NL :: msg))))
        SP pre.length = ((pre.length + k.length : Nat) : Int) := by
      rw [pyFind_append, pyFindAux_first hkSP]
    rw [hsp]
    -- newline position: somewhere at or после the space
    have hnlmem : NL ∈ fold v ++ NL :: (linesBytes L2 ++ NL :: msg) := by simp
    obtain ⟨j, hj⟩ : ∃ j, pyFindAux NL (fold v ++ NL :: (linesBytes L2 ++ NL :: msg)) = some j := by
      cases hfa : pyFindAux NL (fold v ++ NL :: (linesBytes L2 ++ NL :: msg)) with
      | none => exact absurd hnlmem (pyFindAux_eq_none.mp hfa)
      | some j => exact ⟨j, rfl⟩
    have hnl : pyFind (pre ++ (k ++ SP :: (fold v ++ NL :: (linesBytes L2 ++ NL :: msg))))
        NL pre.length = ((pre.length + (k.length + 1 + j) : Nat) : Int) := by
      rw [pyFind_append]
      have hsplit : k ++ SP :: (fold v ++ NL :: (linesBytes L2 ++ NL :: msg)) =
          (k ++ [SP]) ++ (fold v ++ NL :: (linesBytes L2 ++ NL :: msg)) := by simp
      have hnm : NL ∉ k ++ [SP] := by
        intro hm
        rcases List.mem_append.mp hm with h1 | h2
        · exact hkNL h1
        · simp at h2
          exact absurd h2 (by decide)
      rw [hsplit, pyFindAux_append_not_mem hnm, hj]
      simp
      push_cast
      ring
    rw [hnl]
    rw [if_neg (by push_cast; omega)]
    -- the terminator scan
    have hshape : pre ++ (k ++ SP :: (fold v ++ NL :: (linesBytes L2 ++ NL :: msg))) =
        (pre ++ [kh]) ++ (kt ++ SP :: fold v) ++ NL :: c :: w := by
      rw [hkk, hcw]
      simp
    have hnf : nlFolded (kt ++ SP :: fold v) = true := by
      refine nlFolded_append_no_nl ?_ (nlFolded_cons_sp (nlFolded_fold v))
      intro x hx
      exact (hk.2 x (by rw [hkk]; simp [hx])).2
    have hcount : (kt ++ SP :: fold v).count NL + 1 ≤ f + 1 := by
      have h1 : (kt ++ SP :: fold v).count NL = (fold v).count NL := by
        rw [List.count_append, List.count_cons_of_ne (by decide)]
        rw [List.count_eq_zero.mpr (fun hm => (hk.2 NL (by rw [hkk]; simp [hm])).2 rfl)]
        omega
      have h2 : (fold v).count NL ≤ (fold v).length := List.count_le_length NL (fold v)
      have h3 : (linesBytes ((k, v) :: L2) ++ NL :: msg).length ≥ (fold v).length := by
        rw [linesBytes_cons]
        simp [lineB]
        omega
      omega
    have hsc : scanEnd (pre ++ (k ++ SP :: (fold v ++ NL :: (linesBytes L2 ++ NL :: msg))))
        (f + 1) ((pre.length : Nat) : Int) =
        .ok ((pre.length + (k.length + 1 + (fold v).length) : Nat) : Int) := by
      rw [hshape]
      have harg : ((pre.length : Nat) : Int) = (((pre ++ [kh]).length : Nat) : Int) - 1 := by
        simp
      rw [harg, scanEnd_ok (f + 1) (kt ++ SP :: fold v) (pre ++ [kh]) w c hnf hcsp hcount]
      congr 1
      rw [hkk]
      simp
      push_cast
      ring
    rw [hsc]
    -- reduce the match on the ok result
    split
    · rename_i err habs
      exact absurd habs (by simp)
    · rename_i end2 hend
      injection hend with hend2
      -- the key and value slices
      have hkey : pySlice (pre ++ (k ++ SP :: (fold v ++ NL :: (linesBytes L2 ++ NL :: msg))))
          (pre.length : Int) ((pre.length + k.length : Nat) : Int) = k := by
        have h := pySlice_take pre (k ++ SP :: (fold v ++ NL :: (linesBytes L2 ++ NL :: msg))) k.length
        rw [List.take_left] at h
        push_cast at h ⊢
        exact h
      have hval : pySlice (pre ++ (k ++ SP :: (fold v ++ NL :: (linesBytes L2 ++ NL :: msg))))
          (((pre.length + k.length : Nat) : Int) + 1)
          ((pre.length + (k.length + 1 + (fold v).length) : Nat) : Int) = fold v := by
        have h := pySlice_take (pre ++ k ++ [SP]) (fold v ++ NL :: (linesBytes L2 ++ NL :: msg))
          (fold v).length
        rw [List.take_left] at h
        have hl : (pre ++ k ++ [SP]) ++ (fold v ++ NL :: (linesBytes L2 ++ NL :: msg)) =
            pre ++ (k ++ SP :: (fold v ++ NL :: (linesBytes L2 ++ NL :: msg))) := by simp
        have hlen : (pre ++ k ++ [SP]).length = pre.length + k.length + 1 := by simp; omega
        rw [hl, hlen] at h
        push_cast at h ⊢
        have hcast : (pre.length : Int) + (k.length : Int) + 1 + ((fold v).length : Int) =
            (pre.length : Int) + ((k.length : Int) + 1 + ((fold v).length : Int)) := by ring
        rw [hcast] at h
        exact h
      rw [← hend2, hkey, hval, unfold_fold]
      -- recurse on the remaining lines
      have htn : ((((pre.length + (k.length + 1 + (fold v).length) : Nat) : Int)) + 1).toNat =
          (pre ++ lineB k v).length := by
        simp [lineB]
        omega
      rw [htn]
      have hl3 : pre ++ (k ++ SP :: (fold v ++ NL :: (linesBytes L2 ++ NL :: msg))) =
          (pre ++ lineB k v) ++ (linesBytes L2 ++ NL :: msg) := by
        simp [lineB]
      rw [hl3]
      rw [ih f (pre ++ lineB k v) (addValue dct k v) hwf2 (by
        rw [linesBytes_cons] at hf
        simp only [List.length_append] at hf ⊢
        have : (lineB k v).length ≥ 3 := by
          rw [hkk]
          simp [lineB]
          omega
        omega)]
      rfl

/-! Rebuilding the dict: one `addValue` per line regroups each entry. -/

theorem addValue_cons_ne {k2 k : Bytes} (hne : k2 ≠ k) (e2 : Entry) (rest : CommitDict)
    (v : Bytes) :
    addValue ((k2, e2) :: rest) k v = (k2, e2) :: addValue rest k v := by
  simp [addValue, hne]

theorem addValue_not_mem {d : CommitDict} {k : Bytes} (h : ∀ ke ∈ d, ke.1 ≠ k) (v : Bytes) :
    addValue d k v = d ++ [(k, .one v)] := by
  induction d with
  | nil => rfl
  | cons ke rest ih =>
    obtain ⟨k2, e2⟩ := ke
    have hne : k2 ≠ k := h (k2, e2) (by simp)
    rw [addValue_cons_ne hne]
    rw [ih (fun x hx => h x (by simp [hx]))]
    simp

theorem addValue_last_one {d : CommitDict} {k : Bytes} (h : ∀ ke ∈ d, ke.1 ≠ k)
    (v0 v : Bytes) :
    addValue (d ++ [(k, .one v0)]) k v = d ++ [(k, .many [v0, v])] := by
  induction d with
  | nil => simp [addValue]
  | cons ke rest ih =>
    obtain ⟨k2, e2⟩ := ke
    have hne : k2 ≠ k := h (k2, e2) (by simp)
    rw [List.cons_append, addValue_cons_ne hne]
    rw [ih (fun x hx => h x (by simp [hx]))]
    simp

theorem addValue_last_many {d : CommitDict} {k : Bytes} (h : ∀ ke ∈ d, ke.1 ≠ k)
    (vs : List Bytes) (v : Bytes) :
    addValue (d ++ [(k, .many vs)]) k v = d ++ [(k, .many (vs ++ [v]))] := by
  induction d with
  | nil => simp [addValue]
  | cons ke rest ih =>
    obtain ⟨k2, e2⟩ := ke
    have hne : k2 ≠ k := h (k2, e2) (by simp)
    rw [List.cons_append, addValue_cons_ne hne]
    rw [ih (fun x hx => h x (by simp [hx]))]
    simp

theorem foldl_addValue_many {k : Bytes} :
    ∀ (rest : List Bytes) (vs : List Bytes) (d : CommitDict),
    (∀ ke ∈ d, ke.1 ≠ k) →
    List.foldl (fun d kv => addValue d kv.1 kv.2) (d ++ [(k, .many vs)])
      (rest.map (fun v => (k, v))) = d ++ [(k, .many (vs ++ rest))] := by
  intro rest
  induction rest with
  | nil =>
    intro vs d _
    simp
  | cons v rest2 ih =>
    intro vs d hd
    rw [List.map_cons, List.foldl_cons]
    have h1 : addValue (d ++ [(k, .many vs)]) k v = d ++ [(k, .many (vs ++ [v]))] :=
      addValue_last_many hd vs v
    rw [h1, ih (vs ++ [v]) d hd]
    simp

theorem foldl_addValue_group {k : Bytes} {e : Entry} {d : CommitDict}
    (he : validEntry e = true) (hd : ∀ ke ∈ d, ke.1 ≠ k) :
    List.foldl (fun d kv => addValue d kv.1 kv.2) d
      ((entryVals e).map (fun v => (k, v))) = d ++ [(k, e)] := by
  cases e with
  | one v =>
    rw [show entryVals (.one v) = [v] from rfl]
    rw [List.map_cons, List.map_nil, List.foldl_cons, List.foldl_nil]
    exact addValue_not_mem hd v
  | many vs =>
    unfold validEntry at he
    rw [decide_eq_true_eq] at he
    obtain ⟨v0, v1, rest, hvs⟩ : ∃ v0 v1 rest, vs = v0 :: v1 :: rest := by
      cases vs with
      | nil => simp at he
      | cons v0 t =>
        cases t with
        | nil => simp at he
        | cons v1 rest => exact ⟨v0, v1, rest, rfl⟩
    rw [hvs]
    rw [show entryVals (.many (v0 :: v1 :: rest)) = v0 :: v1 :: rest from rfl]
    rw [List.map_cons, List.map_cons, List.foldl_cons, List.foldl_cons]
    rw [addValue_not_mem hd v0, addValue_last_one hd v0 v1]
    rw [foldl_addValue_many rest [v0, v1] d hd]
    rfl

theorem hdrLines_cons (k : Bytes) (e : Entry) (hs : CommitDict) :
    hdrLines ((k, e) :: hs) = (entryVals e).map (fun v => (k, v)) ++ hdrLines hs := by
  simp [hdrLines]

theorem foldl_hdrLines :
    ∀ (hs : CommitDict) (d : CommitDict),
    (∀ ke ∈ hs, validEntry ke.2 = true) →
    (hs.map Prod.fst).Nodup →
    (∀ ke ∈ d, ∀ ke2 ∈ hs, ke.1 ≠ ke2.1) →
    List.foldl (fun d kv => addValue d kv.1 kv.2) d (hdrLines hs) = d ++ hs := by
  intro hs
  induction hs with
  | nil =>
    intro d _ _ _
    simp [hdrLines]
  | cons ke hs2 ih =>
    intro d he hnd hdisj
    obtain ⟨k, e⟩ := ke
    rw [hdrLines_cons, List.foldl_append]
    rw [foldl_addValue_group (he (k, e) (by simp)) (fun x hx => hdisj x hx (k, e) (by simp))]
    have hknotin : k ∉ (hs2.map Prod.fst) := by
      rw [List.map_cons, List.nodup_cons] at hnd
      exact hnd.1
    rw [ih (d ++ [(k, e)])
      (fun x hx => he x (by simp [hx]))
      (by rw [List.map_cons, List.nodup_cons] at hnd; exact hnd.2)
      (by
        intro x hx ke2 hke2
        rcases List.mem_append.mp hx with h1 | h2
        · exact hdisj x h1 ke2 (by simp [hke2])
        · simp at h2
          subst h2
          intro hcontr
          exact hknotin (by
            have hk2 : k = ke2.1 := hcontr
            rw [hk2]
            exact List.mem_map.mpr ⟨ke2, hke2, rfl⟩))]
    simp

theorem setKey_not_mem {d : CommitDict} {k : Bytes} (h : ∀ ke ∈ d, ke.1 ≠ k) (e : Entry) :
    setKey d k e = d ++ [(k, e)] := by
  induction d with
  | nil => rfl
  | cons ke rest ih =>
    obtain ⟨k2, e2⟩ := ke
    rw [setKey, if_neg (h (k2, e2) (by simp))]
    rw [ih (fun x hx => h x (by simp [hx]))]
    simp

/-! The serializer side. -/

theorem lookupE_msg {hs : CommitDict} (h : ∀ ke ∈ hs, ke.1 ≠ ([] : Bytes)) (msg : Bytes) :
    lookupE (hs ++ [([], Entry.one msg)]) [] = some (.one msg) := by
  induction hs with
  | nil => rfl
  | cons ke rest ih =>
    obtain ⟨k2, e2⟩ := ke
    rw [List.cons_append, lookupE, if_neg (h (k2, e2) (by simp))]
    exact ih (fun x hx => h x (by simp [hx]))

theorem linesBytes_map (k : Bytes) (vs : List Bytes) :
    linesBytes (vs.map (fun v => (k, v))) =
      vs.flatMap (fun v => k ++ SP :: (fold v ++ [NL])) := by
  induction vs with
  | nil => rfl
  | cons v vs2 ih =>
    rw [List.map_cons, List.flatMap_cons, ← ih]
    simp [linesBytes, lineB]

theorem linesBytes_append (L1 L2 : List (Bytes × Bytes)) :
    linesBytes (L1 ++ L2) = linesBytes L1 ++ linesBytes L2 := by
  simp [linesBytes]

theorem hdrBytes_append_msg {hs : CommitDict} (h : ∀ ke ∈ hs, ke.1 ≠ ([] : Bytes))
    (msg : Bytes) :
    hdrBytes (hs ++ [([], Entry.one msg)]) = linesBytes (hdrLines hs) := by
  induction hs with
  | nil => rfl
  | cons ke rest ih =>
    obtain ⟨k2, e2⟩ := ke
    rw [List.cons_append, hdrBytes, if_neg (h (k2, e2) (by simp))]
    rw [ih (fun x hx => h x (by simp [hx]))]
    rw [hdrLines_cons, linesBytes_append, linesBytes_map]

theorem wfHeaders_spec {hs : CommitDict} (h : wfHeaders hs = true) :
    (∀ ke ∈ hs, validKey ke.1 = true ∧ validEntry ke.2 = true) ∧
      (hs.map Prod.fst).Nodup := by
  unfold wfHeaders at h
  rw [Bool.and_eq_true, List.all_eq_true, decide_eq_true_eq] at h
  refine ⟨fun ke hke => ?_, h.2⟩
  have h2 := h.1 ke hke
  rw [Bool.and_eq_true] at h2
  exact h2

/-- Serializing a well-formed record (message entry last). -/
theorem serialize_wf {hs : CommitDict} (msg : Bytes) (hwf : wfHeaders hs = true) :
    serialize_commit_format (hs ++ [([], Entry.one msg)]) = .ok (serBytes hs msg) := by
  obtain ⟨hval, hnd⟩ := wfHeaders_spec hwf
  have hkeys : ∀ ke ∈ hs, ke.1 ≠ ([] : Bytes) := fun ke hke =>
    (validKey_spec (hval ke hke).1).1
  unfold serialize_commit_format
  rw [lookupE_msg hkeys msg, hdrBytes_append_msg hkeys msg]
  rfl

/-- Parsing the serialized image of a well-formed record returns exactly
the record. -/
theorem parse_serBytes (hs : CommitDict) (msg : Bytes) (fuel : Nat)
    (hwf : wfHeaders hs = true)
    (hfuel : (serBytes hs msg).length + 1 ≤ fuel) :
    parse_commit_format (serBytes hs msg) fuel 0 [] = .ok (hs ++ [([], Entry.one msg)]) := by
  obtain ⟨hval, hnd⟩ := wfHeaders_spec hwf
  have hkeys : ∀ ke ∈ hs, ke.1 ≠ ([] : Bytes) := fun ke hke =>
    (validKey_spec (hval ke hke).1).1
  have hlines : ∀ kv ∈ hdrLines hs, validKey kv.1 = true := by
    intro kv hkv
    unfold hdrLines at hkv
    rw [List.mem_flatMap] at hkv
    obtain ⟨ke, hke, hkv2⟩ := hkv
    rw [List.mem_map] at hkv2
    obtain ⟨v, hv, hkveq⟩ := hkv2
    rw [← hkveq]
    exact (hval ke hke).1
  have h := parse_lines msg (hdrLines hs) fuel [] [] hlines
    (by unfold serBytes at hfuel; exact hfuel)
  rw [foldl_hdrLines hs [] (fun ke hke => (hval ke hke).2) hnd (by simp)] at h
  simp only [List.nil_append] at h
  rw [setKey_not_mem hkeys (Entry.one msg)] at h
  simpa [serBytes] using h

/-- `parseCommit` on a well-formed serialized record (its canonical fuel
is exactly one past the payload length). -/
theorem parseCommit_serBytes (hs : CommitDict) (msg : Bytes) (hwf : wfHeaders hs = true) :
    parseCommit (serBytes hs msg) = .ok (hs ++ [([], Entry.one msg)]) := by
  unfold parseCommit
  exact parse_serBytes hs msg _ hwf (Nat.le_refl _)

/-- Overwriting a path with the same content changes nothing. -/
theorem Store.put_idem (s : Store) (p : Str × Str) (v : Bytes) :
    (s.put p v).put p v = s.put p v := by
  funext q
  unfold Store.put
  by_cases h : q = p <;> simp [h]

/-! The claims. -/

/-- Claim C2, counterexample: the claim promises
`parse(serialize(R)) == R` for every CommitRecord. A record holding a
one-element list value is serialized exactly like a plain value, so it
re-parses to the plain form: the round trip returns a different record.
(Python list *and* OrderedDict equality are shape- and order-sensitive,
as is the model's.) -/
theorem claim_c2_counterexample :
    serialize_commit_format [([107], Entry.many [[118]]), ([], Entry.one [109])] =
      .ok [107, 32, 118, 10, 10, 109]
    ∧ parseCommit [107, 32, 118, 10, 10, 109] =
      .ok [([107], Entry.one [118]), ([], Entry.one [109])]
    ∧ ([([107], Entry.one [118]), ([], Entry.one [109])] : CommitDict) ≠
      [([107], Entry.many [[118]]), ([], Entry.one [109])] :=
  ⟨rfl, rfl, by decide⟩

/-- Claim C2, amended: for every record whose header keys are nonempty,
space- and newline-free, pairwise distinct and distinct from the empty
message key, whose message sits last as a plain value, and whose
multi-valued entries hold at least two values, serialization produces
`serBytes hs msg` and parsing that payload (with fuel past its length,
i.e. the parse terminates) returns exactly the record — both round-trip
directions, key order and per-key value order preserved. -/
theorem claim_c2_amended (hs : CommitDict) (msg : Bytes) (fuel : Nat)
    (hwf : wfHeaders hs = true)
    (hfuel : (serBytes hs msg).length + 1 ≤ fuel) :
    serialize_commit_format (hs ++ [([], Entry.one msg)]) = .ok (serBytes hs msg) ∧
    parse_commit_format (serBytes hs msg) fuel 0 [] = .ok (hs ++ [([], Entry.one msg)]) :=
  ⟨serialize_wf msg hwf, parse_serBytes hs msg fuel hwf hfuel⟩

/-- Witness for amended claim C2: the record with one header line
`k v` and message `m`. -/
theorem claim_c2_amended_witness :
    wfHeaders [([107], Entry.one [118])] = true
    ∧ (serialize_commit_format ([([107], Entry.one [118])] ++ [([], Entry.one [109])]) =
        .ok (serBytes [([107], Entry.one [118])] [109])
      ∧ parse_commit_format (serBytes [([107], Entry.one [118])] [109]) 7 0 [] =
        .ok ([([107], Entry.one [118])] ++ [([], Entry.one [109])])) :=
  ⟨by decide, claim_c2_amended [([107], Entry.one [118])] [109] 7 (by decide) (by decide)⟩

/-- Claim C3: the spec says the write path accepts each of the four tags
blob, commit, tree, tag, dispatching each to its registered variant and
rejecting only unknown tags. The code instead tests `b'tag'` twice, so a
blob request falls through to the Unknown-type branch, and the tree/tag
branches name classes that are never defined (NameError). The theorem
evaluates `hash_object` at those tags: blob is rejected as unknown,
tree and tag stop with a NameError. -/
theorem claim_c3_hash_object_dispatch
    (compress : Bytes → Bytes) (sha1hex : Bytes → Str)
    (data : Bytes) (store : Store) (to_disk : Bool) :
    hash_object compress sha1hex bBlob data store to_disk = .error .unknownType
    ∧ hash_object compress sha1hex bTree data store to_disk = .error .nameErrorTree
    ∧ hash_object compress sha1hex bTag data store to_disk = .error .nameErrorTag :=
  ⟨rfl, rfl, rfl⟩

/-- Claim C4: the spec says a Get on a stored frame declaring type tree
(or tag) fails with NotImplemented from the variant's stub codec. In the
code the `GitTree` and `GitTag` classes are never defined — the
Unimplemented stubs are local functions trapped inside
`GitObject.__init__` — so `read_object` stops with a `NameError` at
`c = GitTree` / `c = GitTag` instead. Evaluated on stores holding the
frames `tree 0 NUL` and `tag 0 NUL`. -/
theorem claim_c4_tree_tag_name_error :
    read_object id stTree (.str ['a', 'b', 'c', 'd']) = .error .nameErrorTree
    ∧ read_object id stTagFrame (.str ['a', 'b', 'c', 'd']) = .error .nameErrorTag :=
  ⟨rfl, rfl⟩

/-- Claim C5: the spec says walking the diamond history from D visits
D, B, C, A once each and emits the four edges (D,B), (D,C), (B,A),
(C,A). The code prints the first edge and then recurses with the raw
bytes parent id; `read_object` then calls `os.path.join` on a str gitdir
and bytes path components, which raises `TypeError`. The walk therefore
stops after one edge, having seen only D and the bytes id bbbb. -/
theorem claim_c5_diamond_walk_crashes :
    log_graphviz id diamondStore 9 (.str ['d', 'd', 'd', 'd']) ⟨[], [], none⟩ =
      ⟨[(.str ['d', 'd', 'd', 'd'], ['b', 'b', 'b', 'b'])],
       [.str ['d', 'd', 'd', 'd'], .bytes [98, 98, 98, 98]],
       some (.readFail .typeMixError)⟩ := by
  rfl

/-- Claim C7: the spec says that when the scan for a value's terminating
newline reaches end-of-input, parsing fails with FormatError. On the
payload `a b NL SP c` the scan instead breaks with `end = -1`, the
recursion restarts at cursor 0, and the parse never returns: for every
fuel the model reports fuel exhaustion, i.e. genuine nontermination
(a RecursionError/hang in Python), never a FormatError. -/
theorem claim_c7_missing_terminator_diverges (fuel : Nat) (dct : CommitDict) :
    parse_commit_format [97, 32, 98, 10, 32, 99] fuel 0 dct = .error .noFuel := by
  induction fuel generalizing dct with
  | zero => rfl
  | succ f ih =>
    cases f with
    | zero => rfl
    | succ g => exact ih (addValue dct [97] [98, 10])

/-- Claim C8: a payload whose first byte is a newline parses to a dict
holding only the message key mapped to the entire remainder. -/
theorem claim_c8_leading_blank_line (rest : Bytes) (fuel : Nat) (h : 1 ≤ fuel) :
    parse_commit_format (NL :: rest) fuel 0 [] = .ok [([], .one rest)] := by
  obtain ⟨f, rfl⟩ : ∃ f, fuel = f + 1 := ⟨fuel - 1, by omega⟩
  have hnl : pyFind (NL :: rest) NL 0 = 0 := by
    rw [pyFind_zero, show pyFindAux NL (NL :: rest) = some 0 by rw [pyFindAux, if_pos rfl]]
    rfl
  have hslice : pySlice (NL :: rest) 1 ((NL :: rest).length : Int) = rest := by
    unfold pySlice
    rw [sliceNorm_of_le (le_refl _)]
    rw [← Nat.cast_one, sliceNorm_of_le (by simp)]
    rw [List.take_of_length_le (le_refl _)]
    rfl
  have hmap : pyFindAux SP (NL :: rest) = (pyFindAux SP rest).map (· + 1) := by
    rw [pyFindAux, if_neg (by decide)]
  rw [parse_commit_format]
  simp only [Nat.cast_zero, zero_add]
  rw [hnl]
  cases hfa : pyFindAux SP rest with
  | none =>
    have hsp : pyFind (NL :: rest) SP 0 = -1 := by
      rw [pyFind_zero, hmap, hfa]
      rfl
    rw [hsp, if_pos (Or.inl (by decide)), if_pos rfl, hslice]
    rfl
  | some i =>
    have hsp : pyFind (NL :: rest) SP 0 = (i : Int) + 1 := by
      rw [pyFind_zero, hmap, hfa]
      simp
    rw [hsp, if_pos (Or.inr (by omega)), if_pos rfl, hslice]
    rfl

/-- Witness for claim C8 at the concrete payload `NL m`. -/
theorem claim_c8_leading_blank_line_witness :
    1 ≤ 1 ∧ parse_commit_format (NL :: [109]) 1 0 [] = .ok [([], .one [109])] :=
  ⟨Nat.le_refl 1, claim_c8_leading_blank_line [109] 1 (Nat.le_refl 1)⟩

/-- Claim C9: with the write flag falsy, `write_object` still returns
the sha the same type and payload would get with persistence enabled,
and leaves the store untouched. -/
theorem claim_c9_dry_run_same_id
    (compress : Bytes → Bytes) (sha1hex : Bytes → Str)
    (type data : Bytes) (store : Store) :
    write_object compress sha1hex type data store false =
      ((write_object compress sha1hex type data store true).1, store) :=
  rfl


/-- Claim C6, counterexample: the claim says a stored frame with no NUL
byte makes Get fail with CorruptObject, never returning a partial
result. The seven-byte frame `blob 7x` has no NUL: `null_pos` is -1, the
declared-length slice is `raw[5:-1] = b"7"`, `int` gives 7, and the
length check `7 == len(raw) - 1 - (-1)` passes, so `read_object`
silently returns a blob whose payload is the whole frame. -/
theorem claim_c6_counterexample :
    read_object id stNoNul (.str ['f', 'f', 'f', 'f']) =
      .ok (.blob [98, 108, 111, 98, 32, 55, 120]) := rfl

/-- Claim C6, amended: the only corruption `read_object` itself detects
is the length check — whenever the bytes between the first space and the
first NUL (under Python slicing, whatever `space_pos` and `null_pos`
are, -1 included) parse as an integer different from
`len(raw) - 1 - null_pos`, it fails with the Malformed (CorruptObject)
exception. Frames lacking a space or a NUL are not detected as such. -/
theorem claim_c6_amended (decompress : Bytes → Bytes) (store : Store) (X : Str)
    (file : Bytes) (sz : Int)
    (hst : store (X.take 2, X.drop 2) = some file)
    (hint : pyInt (pySlice (decompress file)
        (pyFind (decompress file) SP 0 + 1) (pyFind (decompress file) NUL 0)) = some sz)
    (hsz : sz ≠ ((decompress file).length : Int) - 1 - pyFind (decompress file) NUL 0) :
    read_object decompress store (.str X) = .error .malformed := by
  simp only [read_object, pathOf, hst]
  rw [hint]
  split
  · rename_i heq
    exact absurd heq (by simp)
  · rename_i size hsize
    injection hsize with hs
    subst hs
    rw [if_pos hsz]

/-- Witness for amended claim C6: frame `blob 5 NUL hi` declares length
5 but carries 2 payload bytes. -/
theorem claim_c6_amended_witness :
    read_object id stBadLen (.str ['f', 'f', 'f', 'f']) = .error .malformed :=
  claim_c6_amended id stBadLen ['f', 'f', 'f', 'f']
    [98, 108, 111, 98, 32, 53, 0, 104, 105] 5 rfl (by decide) (by decide)

/-- Claim C10: `read_object` performs no digest verification — for any
id X whose derived path holds a well-formed compressed blob frame, it
returns that frame's type and payload even when the frame's digest is
not X (the digest function appears nowhere in the read path). -/
theorem claim_c10_no_digest_verification (decompress : Bytes → Bytes)
    (sha1hex : Bytes → Str) (store : Store) (X : Str) (P file : Bytes)
    (hmismatch : sha1hex (frameOf bBlob P) ≠ X)
    (hst : store (X.take 2, X.drop 2) = some file)
    (hdec : decompress file = frameOf bBlob P) :
    read_object decompress store (.str X) = .ok (.blob P) := by
  rw [read_object_frame decompress store X file bBlob P (by decide) (by decide) hst hdec]
  rfl

/-- Witness for claim C10: the blob frame for `hi` stored at path zz/00,
an id its digest (under the fixed digest stand-in) does not match. -/
theorem claim_c10_no_digest_verification_witness :
    shaFix (frameOf bBlob [104, 105]) ≠ ['z', 'z', '0', '0']
    ∧ read_object id stWrongId (.str ['z', 'z', '0', '0']) = .ok (.blob [104, 105]) :=
  ⟨by decide, claim_c10_no_digest_verification id shaFix stWrongId
    ['z', 'z', '0', '0'] [104, 105] (frameOf bBlob [104, 105]) (by decide) rfl rfl⟩

/-- Claim C1: reading back a just-written object returns its type and
serialized payload, and writing is idempotent. Conjunct (a): for every
payload P, a written blob reads back as a blob with payload P (the blob
codec is the identity). Conjunct (b): every commit object the code can
actually build carries a dict from the parse image, so its serialized
payload has the shape `serBytes hs msg` with well-formed headers; such a
payload reads back as a commit whose re-serialization is exactly the
payload. Conjunct (c): a second write of the identical (type, payload)
returns the identical hex id and leaves the store unchanged (no
duplicate storage; the model write path is total, so neither call
errors). -/
theorem claim_c1_put_get_roundtrip
    (compress decompress : Bytes → Bytes) (sha1hex : Bytes → Str)
    (hdec : ∀ x, decompress (compress x) = x) :
    (∀ (P : Bytes) (store : Store),
      read_object decompress ((write_object compress sha1hex bBlob P store true).2)
        (.str (write_object compress sha1hex bBlob P store true).1) = .ok (.blob P))
    ∧ (∀ (hs : CommitDict) (msg : Bytes) (store : Store), wfHeaders hs = true →
      read_object decompress
          ((write_object compress sha1hex bCommit (serBytes hs msg) store true).2)
          (.str (write_object compress sha1hex bCommit (serBytes hs msg) store true).1) =
        .ok (.commit (hs ++ [([], Entry.one msg)]))
      ∧ serialize_commit_format (hs ++ [([], Entry.one msg)]) = .ok (serBytes hs msg))
    ∧ (∀ (type data : Bytes) (store : Store),
      (write_object compress sha1hex type data store true).1 =
        (write_object compress sha1hex type data
          ((write_object compress sha1hex type data store true).2) true).1
      ∧ (write_object compress sha1hex type data
          ((write_object compress sha1hex type data store true).2) true).2 =
        (write_object compress sha1hex type data store true).2) := by
  refine ⟨?_, ?_, ?_⟩
  · intro P store
    have hst : ((write_object compress sha1hex bBlob P store true).2)
        (((write_object compress sha1hex bBlob P store true).1).take 2,
         ((write_object compress sha1hex bBlob P store true).1).drop 2) =
        some (compress (frameOf bBlob P)) := by
      show Store.put store _ (compress (frameOf bBlob P)) _ = _
      unfold Store.put
      split_ifs with hq
      · rfl
      · exact absurd rfl hq
    have h := read_object_frame decompress
      ((write_object compress sha1hex bBlob P store true).2)
      ((write_object compress sha1hex bBlob P store true).1)
      (compress (frameOf bBlob P)) bBlob P (by decide) (by decide) hst (hdec _)
    exact h.trans rfl
  · intro hs msg store hwf
    have hst : ((write_object compress sha1hex bCommit (serBytes hs msg) store true).2)
        (((write_object compress sha1hex bCommit (serBytes hs msg) store true).1).take 2,
         ((write_object compress sha1hex bCommit (serBytes hs msg) store true).1).drop 2) =
        some (compress (frameOf bCommit (serBytes hs msg))) := by
      show Store.put store _ (compress (frameOf bCommit (serBytes hs msg))) _ = _
      unfold Store.put
      split_ifs with hq
      · rfl
      · exact absurd rfl hq
    have h := read_object_frame decompress
      ((write_object compress sha1hex bCommit (serBytes hs msg) store true).2)
      ((write_object compress sha1hex bCommit (serBytes hs msg) store true).1)
      (compress (frameOf bCommit (serBytes hs msg))) bCommit (serBytes hs msg)
      (by decide) (by decide) hst (hdec _)
    refine ⟨h.trans ?_, serialize_wf msg hwf⟩
    rw [if_pos rfl, parseCommit_serBytes hs msg hwf]
  · intro type data store
    exact ⟨rfl, Store.put_idem store _ _⟩

/-- Witness for claim C1 with identity compression and a fixed digest
stand-in, writing the one-byte blob `h` into the empty store. -/
theorem claim_c1_put_get_roundtrip_witness :
    (∀ x : Bytes, id (id x) = x)
    ∧ read_object id ((write_object id shaFix bBlob [104] Store.empty true).2)
        (.str (write_object id shaFix bBlob [104] Store.empty true).1) = .ok (.blob [104]) :=
  ⟨fun _ => rfl,
    (claim_c1_put_get_roundtrip id id shaFix (fun _ => rfl)).1 [104] Store.empty⟩

end Wyag
